import Mathlib

/-
  Verification of the cube-quadtree terrain subsystem of bevy_procedural_planet.

  Shallow embedding conventions:
  - Machine integers (u32 in ChunkHash) are embedded as Nat; wrapping writes
    take an explicit % 2^32.  Bit operations on disjoint constant fields are
    embedded arithmetically: x << k becomes x * 2^k, x >> k becomes x / 2^k,
    x & (2^k - 1) becomes x % 2^k, and a bitwise OR of fields that occupy
    disjoint bit ranges becomes addition (exact because no carries occur).
  - Scalar (f64) geometry is embedded over the exact reals.
  - A Rust panic or failed assertion is embedded as Option.none.
-/

namespace Planet

/-- Quadrant as in src/src/math/quad_tree.rs: ROOT = 0, SW = 1, SE = 2, NW = 3, NE = 4. -/
inductive Quadrant where
  | ROOT
  | SW
  | SE
  | NW
  | NE
deriving DecidableEq, Repr

/-- The numeric value of a quadrant, matching the repr(u8) discriminants. -/
def Quadrant.val : Quadrant → ℕ
  | .ROOT => 0
  | .SW => 1
  | .SE => 2
  | .NW => 3
  | .NE => 4

/-- From<u16> for Quadrant; values above 4 panic in the source, embedded as none. -/
def Quadrant.ofVal? : ℕ → Option Quadrant
  | 0 => some .ROOT
  | 1 => some .SW
  | 2 => some .SE
  | 3 => some .NW
  | 4 => some .NE
  | _ => none

/-- Quadrant::ALL (the four proper quadrants, in source order). -/
def Quadrant.ALL : List Quadrant := [.SW, .SE, .NW, .NE]

/-- Axis as in src/src/plugins/terrain/cube_tree.rs: X=0, Y=1, Z=2, NegX=3, NegY=4, NegZ=5. -/
inductive Axis where
  | X
  | Y
  | Z
  | NegX
  | NegY
  | NegZ
deriving DecidableEq, Repr

/-- The numeric value of an axis, matching the repr(u8) discriminants. -/
def Axis.val : Axis → ℕ
  | .X => 0
  | .Y => 1
  | .Z => 2
  | .NegX => 3
  | .NegY => 4
  | .NegZ => 5

/-- From<u32> for Axis; values above 5 panic in the source, embedded as none. -/
def Axis.ofVal? : ℕ → Option Axis
  | 0 => some .X
  | 1 => some .Y
  | 2 => some .Z
  | 3 => some .NegX
  | 4 => some .NegY
  | 5 => some .NegZ
  | _ => none

/-- Axis::ALL in source order. -/
def Axis.ALL : List Axis := [.X, .Y, .Z, .NegX, .NegY, .NegZ]

namespace ChunkHash

/-- ChunkHash::new body (the bit packing itself, after the debug assertion):
    hash = (axis & 0b111) | ((depth & 0b111111) << 3) | (collider << 9)
           | OR over i of ((path[i] & 0b111) << (10 + 3*i)).
    All fields occupy disjoint bit ranges, so the ORs are embedded as sums. -/
def make (a : Axis) (t : ℕ) (c : Bool) (p : Fin 7 → Quadrant) : ℕ :=
  a.val % 8 + t % 64 * 8 + (cond c 1 0) * 512 +
    (p 0).val % 8 * 2 ^ 10 + (p 1).val % 8 * 2 ^ 13 + (p 2).val % 8 * 2 ^ 16 +
    (p 3).val % 8 * 2 ^ 19 + (p 4).val % 8 * 2 ^ 22 + (p 5).val % 8 * 2 ^ 25 +
    (p 6).val % 8 * 2 ^ 28

/-- ChunkHash::new with its debug assertion (depth must fit 6 bits); a failed
    assertion is embedded as none. -/
def new? (a : Axis) (t : ℕ) (c : Bool) (p : Fin 7 → Quadrant) : Option ℕ :=
  if t ≤ 63 then some (make a t c p) else none

/-- ChunkHash::new_root: depth 0, collider false, all-ROOT path. -/
def newRoot (a : Axis) : ℕ :=
  make a 0 false (fun _ => .ROOT)

/-- ChunkHash::push_quadrant on the packed u32:
    header = h & 0x3FF; path_bits = (h >> 10) & 0x7FFFFF;
    result = header | (((path_bits << 3) | (q & 0b111)) << 10), truncated to 32 bits.
    The OR-ed parts are disjoint, so they are embedded as sums; the final u32
    shift truncation is the % 2^32. -/
def pushQuadrant (h : ℕ) (q : Quadrant) : ℕ :=
  h % 2 ^ 10 + (h / 2 ^ 10 % 2 ^ 23 * 8 + q.val % 8) * 2 ^ 10 % 2 ^ 32

/-- ChunkHash::with_depth body (after the debug assertion): clear bits 3..8,
    then OR in (depth & 63) << 3. -/
def withDepthRaw (h d : ℕ) : ℕ :=
  h % 8 + d % 64 * 8 + h / 512 * 512

/-- ChunkHash::with_depth with its debug assertion (depth ≤ 63), failure as none. -/
def withDepth? (h d : ℕ) : Option ℕ :=
  if d ≤ 63 then some (withDepthRaw h d) else none

/-- ChunkHash::depth accessor: (h >> 3) & 0b111111. -/
def depth (h : ℕ) : ℕ :=
  h / 8 % 64

/-- ChunkHash::increment_depth: with_depth(min(depth + 1, 63)).  The clamped
    argument always satisfies the with_depth assertion, so this is total. -/
def incrementDepth (h : ℕ) : ℕ :=
  withDepthRaw h (min (depth h + 1) 63)

/-- ChunkHash::with_collider: clear bit 9, then OR in collider << 9. -/
def withCollider (h : ℕ) (c : Bool) : ℕ :=
  h % 512 + (cond c 1 0) * 512 + h / 1024 * 1024

/-- ChunkHash::axis accessor: Axis::from(h & 0b111); invalid values panic (none). -/
def axis? (h : ℕ) : Option Axis :=
  Axis.ofVal? (h % 8)

/-- ChunkHash::collider accessor: ((h >> 9) & 1) != 0. -/
def collider (h : ℕ) : Bool :=
  decide (h / 512 % 2 ≠ 0)

/-- The raw 3-bit path field at position i: (h >> (10 + 3*i)) & 0b111. -/
def pathVal (h : ℕ) (i : Fin 7) : ℕ :=
  h / 2 ^ (10 + 3 * i.val) % 8

/-- ChunkHash::path entry i: Quadrant::from of the raw field; values above 4 panic. -/
def path? (h : ℕ) (i : Fin 7) : Option Quadrant :=
  Quadrant.ofVal? (pathVal h i)

end ChunkHash

/-
  Geometry.  Scalar is f64 in the source (avian3d math with the f64 feature);
  it is embedded over the exact reals, so the statements below are about the
  ideal real-number semantics of the code.
-/

noncomputable section

abbrev Vec2 := ℝ × ℝ

abbrev Vec3 := ℝ × ℝ × ℝ

/-- DRect from src/src/math/double/d_rect.rs (the f64 Rectangle). -/
structure Rectangle where
  min : Vec2
  max : Vec2

/-- DRect::from_corners: componentwise min/max of two opposite corners. -/
def Rectangle.fromCorners (p0 p1 : Vec2) : Rectangle :=
  ⟨(Min.min p0.1 p1.1, Min.min p0.2 p1.2), (Max.max p0.1 p1.1, Max.max p0.2 p1.2)⟩

/-- DRect::from_center_half_size: origin - half and origin + half.  The source
    asserts half_size is nonnegative; that panic path is not modelled, the
    claims only instantiate this with nonnegative half sizes. -/
def Rectangle.fromCenterHalfSize (origin half : Vec2) : Rectangle :=
  ⟨(origin.1 - half.1, origin.2 - half.2), (origin.1 + half.1, origin.2 + half.2)⟩

/-- DRect::center: (min + max) * 0.5. -/
def Rectangle.center (r : Rectangle) : Vec2 :=
  ((r.min.1 + r.max.1) * 0.5, (r.min.2 + r.max.2) * 0.5)

/-- The x component of DRect::size (max - min); the refinement predicate only
    reads size().x. -/
def Rectangle.width (r : Rectangle) : ℝ :=
  r.max.1 - r.min.1

/-- The SW child rectangle of QuadTreeNode::subdivide_bounds:
    from_corners(bounds.min, center). -/
def Rectangle.swQuarter (r : Rectangle) : Rectangle :=
  Rectangle.fromCorners r.min r.center

/-- The SE child rectangle: from_corners((center.x, min.y), (max.x, center.y)). -/
def Rectangle.seQuarter (r : Rectangle) : Rectangle :=
  Rectangle.fromCorners (r.center.1, r.min.2) (r.max.1, r.center.2)

/-- The NW child rectangle: from_corners((min.x, center.y), (center.x, max.y)). -/
def Rectangle.nwQuarter (r : Rectangle) : Rectangle :=
  Rectangle.fromCorners (r.min.1, r.center.2) (r.center.1, r.max.2)

/-- The NE child rectangle: from_corners(center, bounds.max). -/
def Rectangle.neQuarter (r : Rectangle) : Rectangle :=
  Rectangle.fromCorners r.center r.max

/-- QuadTreeNode::subdivide_bounds: the four quadrants in source order. -/
def Rectangle.subdivideBounds (r : Rectangle) : List (Quadrant × Rectangle) :=
  [(.SW, r.swQuarter), (.SE, r.seQuarter), (.NW, r.nwQuarter), (.NE, r.neQuarter)]

/-- The rectangle invariant stated in the spec data model: min ≤ max componentwise. -/
def Rectangle.valid (r : Rectangle) : Prop :=
  r.min.1 ≤ r.max.1 ∧ r.min.2 ≤ r.max.2

/-- Closed membership: a point lies in the rectangle, edges included. -/
def memRect (p : Vec2) (r : Rectangle) : Prop :=
  r.min.1 ≤ p.1 ∧ p.1 ≤ r.max.1 ∧ r.min.2 ≤ p.2 ∧ p.2 ≤ r.max.2

/-- Interior membership: strictly inside the rectangle. -/
def memIntRect (p : Vec2) (r : Rectangle) : Prop :=
  r.min.1 < p.1 ∧ p.1 < r.max.1 ∧ r.min.2 < p.2 ∧ p.2 < r.max.2

/-- Rectangle containment, componentwise. -/
def subRect (r s : Rectangle) : Prop :=
  s.min.1 ≤ r.min.1 ∧ r.max.1 ≤ s.max.1 ∧ s.min.2 ≤ r.min.2 ∧ r.max.2 ≤ s.max.2

/-- A list of rectangles exactly tiles B: the union of its members is B, the
    members have pairwise disjoint interiors (no overlap beyond shared edges),
    and every member is a valid rectangle contained in B. -/
def TilesOf (B : Rectangle) (rs : List Rectangle) : Prop :=
  (∀ p, memRect p B ↔ ∃ r ∈ rs, memRect p r) ∧
    rs.Pairwise (fun r s => ∀ p, ¬(memIntRect p r ∧ memIntRect p s)) ∧
    ∀ r ∈ rs, r.valid ∧ subRect r B

/-- QuadTreeNode from src/src/math/quad_tree.rs: a leaf with payload or an
    internal node with exactly four children (child order SW, SE, NW, NE as
    produced by subdivide_bounds). -/
inductive QuadTreeNode (T : Type) where
  | leaf (bounds : Rectangle) (data : T)
  | internal (bounds : Rectangle) (c0 c1 c2 c3 : QuadTreeNode T)

/-- Depth-first list of leaves: bounds and data, children in index order (the
    order of QuadTreeLeafIter / gather_leaves). -/
def QuadTreeNode.leaves {T : Type} : QuadTreeNode T → List (Rectangle × T)
  | .leaf b d => [(b, d)]
  | .internal _ c0 c1 c2 c3 => c0.leaves ++ c1.leaves ++ c2.leaves ++ c3.leaves

/-- QuadTreeNode::subdivide: a leaf becomes an internal node with four leaf
    children cloning the parent's data; an internal node panics (none). -/
def QuadTreeNode.subdivide? {T : Type} : QuadTreeNode T → Option (QuadTreeNode T)
  | .leaf b d =>
      some (.internal b (.leaf b.swQuarter d) (.leaf b.seQuarter d)
        (.leaf b.nwQuarter d) (.leaf b.neQuarter d))
  | .internal _ _ _ _ _ => none

/-- QuadTreeNode::subdivide_with: like subdivide but each child's data is built
    by the per-quadrant constructor; an internal node panics (none). -/
def QuadTreeNode.subdivideWith? {T : Type} (create : Quadrant → Rectangle → T → T) :
    QuadTreeNode T → Option (QuadTreeNode T)
  | .leaf b d =>
      some (.internal b (.leaf b.swQuarter (create .SW b.swQuarter d))
        (.leaf b.seQuarter (create .SE b.seQuarter d))
        (.leaf b.nwQuarter (create .NW b.nwQuarter d))
        (.leaf b.neQuarter (create .NE b.neQuarter d)))
  | .internal _ _ _ _ _ => none

/-- QuadTreeNode::subdivide_recursive with remaining depth d: depth 0 leaves the
    node unchanged; positive depth subdivides a leaf (cloning its data) and
    recurses into the four fresh children; positive depth on an internal node
    panics (the source calls subdivided(), which panics there). -/
def QuadTreeNode.subdivideRecursive? {T : Type} : ℕ → QuadTreeNode T → Option (QuadTreeNode T)
  | 0, n => some n
  | d + 1, .leaf b dat => do
      let c0 ← subdivideRecursive? d (.leaf b.swQuarter dat)
      let c1 ← subdivideRecursive? d (.leaf b.seQuarter dat)
      let c2 ← subdivideRecursive? d (.leaf b.nwQuarter dat)
      let c3 ← subdivideRecursive? d (.leaf b.neQuarter dat)
      some (.internal b c0 c1 c2 c3)
  | _ + 1, .internal _ _ _ _ _ => none

/-- Modelled from the spec: QuadTreeNode::new_subdivided as invoked in
    CubeTree::new and CubeTree::insert, where it receives a per-quadrant
    constructor closure (the overload committed in quad_tree.rs only takes a
    cloned data value; the constructor-taking variant is missing from src).
    Spec 4.2: subdivision produces four leaf children covering the quadrants
    split at bounds.center(), each child's payload produced per-quadrant by a
    supplied constructor function. -/
def QuadTreeNode.newSubdividedWith {T : Type} (b : Rectangle)
    (f : Quadrant → Rectangle → T) : QuadTreeNode T :=
  .internal b (.leaf b.swQuarter (f .SW b.swQuarter))
    (.leaf b.seQuarter (f .SE b.seQuarter))
    (.leaf b.nwQuarter (f .NW b.nwQuarter))
    (.leaf b.neQuarter (f .NE b.neQuarter))

/-- Modelled from the spec: QuadTreeNode::insert_mut as invoked in
    CubeTree::insert (missing from quad_tree.rs, which only commits the
    immutable-predicate insert/insert_with).  Spec 4.2: depth-first - for every
    current leaf, if the predicate holds, stop; otherwise subdivide with the
    per-quadrant constructor and recurse into the new children; internal nodes
    always recurse into all children.  The call site shows the predicate may
    update the leaf payload (it sets the collider flag), so the predicate
    returns the possibly-updated payload next to its verdict.  The fuel
    argument bounds the subdivision depth, which the Rust recursion leaves
    implicit; with fuel exhausted the leaf is left as is (the theorems below
    supply enough fuel for this branch to be unreachable). -/
def QuadTreeNode.insertMut {T : Type} (pred : Rectangle → T → Bool × T)
    (create : Quadrant → Rectangle → T → T) : ℕ → QuadTreeNode T → QuadTreeNode T
  | fuel, .internal b c0 c1 c2 c3 =>
      .internal b (insertMut pred create fuel c0) (insertMut pred create fuel c1)
        (insertMut pred create fuel c2) (insertMut pred create fuel c3)
  | fuel, .leaf b d =>
      match pred b d with
      | (true, d2) => .leaf b d2
      | (false, d2) =>
        match fuel with
        | 0 => .leaf b d2
        | f + 1 =>
            insertMut pred create f
              (.internal b (.leaf b.swQuarter (create .SW b.swQuarter d2))
                (.leaf b.seQuarter (create .SE b.seQuarter d2))
                (.leaf b.nwQuarter (create .NW b.nwQuarter d2))
                (.leaf b.neQuarter (create .NE b.neQuarter d2)))

/-
  Cube-to-sphere math from src/src/plugins/terrain/helpers.rs.
-/

def v3add (a b : Vec3) : Vec3 := (a.1 + b.1, a.2.1 + b.2.1, a.2.2 + b.2.2)

def v3sub (a b : Vec3) : Vec3 := (a.1 - b.1, a.2.1 - b.2.1, a.2.2 - b.2.2)

def v3smul (s : ℝ) (v : Vec3) : Vec3 := (s * v.1, s * v.2.1, s * v.2.2)

def v3divs (v : Vec3) (s : ℝ) : Vec3 := (v.1 / s, v.2.1 / s, v.2.2 / s)

def v3dot (a b : Vec3) : ℝ := a.1 * b.1 + a.2.1 * b.2.1 + a.2.2 * b.2.2

def v3cross (a b : Vec3) : Vec3 :=
  (a.2.1 * b.2.2 - a.2.2 * b.2.1, a.2.2 * b.1 - a.1 * b.2.2, a.1 * b.2.1 - a.2.1 * b.1)

/-- Vec3Swizzles::yzx. -/
def v3yzx (v : Vec3) : Vec3 := (v.2.1, v.2.2, v.1)

def normSq3 (v : Vec3) : ℝ := v.1 ^ 2 + v.2.1 ^ 2 + v.2.2 ^ 2

def norm3 (v : Vec3) : ℝ := Real.sqrt (normSq3 v)

/-- Vector::distance: length of the difference. -/
def dist3 (a b : Vec3) : ℝ := norm3 (v3sub a b)

/-- Vector::normalize: the vector divided by its length. -/
def normalize3 (v : Vec3) : Vec3 := v3divs v (norm3 v)

/-- unit_cube_to_sphere from helpers.rs: the polynomial-corrected warp
    x' = x * sqrt(1 - y^2/2 - z^2/2 + y^2 z^2 / 3), cyclically in y and z. -/
def unitCubeToSphere (v : Vec3) : Vec3 :=
  (v.1 * Real.sqrt (1 - v.2.1 ^ 2 / 2 - v.2.2 ^ 2 / 2 + v.2.1 ^ 2 * v.2.2 ^ 2 / 3),
   v.2.1 * Real.sqrt (1 - v.2.2 ^ 2 / 2 - v.1 ^ 2 / 2 + v.2.2 ^ 2 * v.1 ^ 2 / 3),
   v.2.2 * Real.sqrt (1 - v.1 ^ 2 / 2 - v.2.1 ^ 2 / 2 + v.1 ^ 2 * v.2.1 ^ 2 / 3))

/-- cube_to_sphere from helpers.rs: unit_cube_to_sphere(pos / radius) * radius. -/
def cubeToSphere (pos : Vec3) (radius : ℝ) : Vec3 :=
  v3smul radius (unitCubeToSphere (v3divs pos radius))

/-- A point on the surface of the axis-aligned cube of half-extent R. -/
def onCubeSurface (R : ℝ) (p : Vec3) : Prop :=
  max |p.1| (max |p.2.1| |p.2.2|) = R

/-- The unit direction of an Axis (From<Axis> for Vector). -/
def axisNormal : Axis → Vec3
  | .X => (1, 0, 0)
  | .Y => (0, 1, 0)
  | .Z => (0, 0, 1)
  | .NegX => (-1, 0, 0)
  | .NegY => (0, -1, 0)
  | .NegZ => (0, 0, -1)

/-- AXIS_COORDINATE_FRAMES local_y = axis_normal.yzx(). -/
def axisLocalY (a : Axis) : Vec3 := v3yzx (axisNormal a)

/-- AXIS_COORDINATE_FRAMES local_x = axis_normal.cross(local_y). -/
def axisLocalX (a : Axis) : Vec3 := v3cross (axisNormal a) (axisLocalY a)

/-- center_on_sphere from helpers.rs: warp the face-local chunk center onto the
    sphere of the given radius. -/
def centerOnSphere (a : Axis) (radius : ℝ) (b : Rectangle) : Vec3 :=
  v3smul radius (unitCubeToSphere (v3add (axisNormal a)
    (v3add (v3smul (2 * ((b.min.1 + b.max.1) / (radius * 4))) (axisLocalX a))
      (v3smul (2 * ((b.min.2 + b.max.2) / (radius * 4))) (axisLocalY a)))))

/-- ChunkData from cube_tree.rs: sphere-mapped center and packed hash. -/
structure ChunkData where
  center : Vec3
  hash : ℕ

/-- ChunkData::new: center_on_sphere(axis, radius, bounds) and the given hash. -/
def ChunkData.new (a : Axis) (b : Rectangle) (radius : ℝ) (h : ℕ) : ChunkData :=
  ⟨centerOnSphere a radius b, h⟩

/-- CubeTree: radius plus the six per-face quadtrees, indexed in Axis::ALL order. -/
structure CubeTree where
  radius : ℝ
  faces : List (QuadTreeNode ChunkData)

def CubeTree.MIN_SIZE : ℝ := 24

def CubeTree.THRESHOLD : ℝ := 1.5

/-- The initial subdivided face built identically by CubeTree::new and
    CubeTree::insert: a root internal node whose four leaf children carry
    new_root(axis).with_depth(1).push_quadrant(quadrant) (the with_depth
    assertion trivially passes at depth 1) and a freshly warped center. -/
def CubeTree.newFace (axis : Axis) (radius : ℝ) (bounds : Rectangle) :
    QuadTreeNode ChunkData :=
  QuadTreeNode.newSubdividedWith bounds fun q cb =>
    ChunkData.new axis cb radius
      (ChunkHash.pushQuadrant (ChunkHash.withDepthRaw (ChunkHash.newRoot axis) 1) q)

/-- CubeTree::new: bounds from center zero and half size (radius, radius), one
    subdivided face per axis. -/
def CubeTree.new (radius : ℝ) : CubeTree :=
  ⟨radius, Axis.ALL.map fun axis =>
    CubeTree.newFace axis radius
      (Rectangle.fromCenterHalfSize (0, 0) (radius, radius))⟩

open Classical in
/-- The refinement predicate passed to insert_mut by CubeTree::insert: a leaf
    at or below the minimum size stops and gets its collider flag set; a leaf
    whose center is farther from the point than size * THRESHOLD stops
    unchanged; otherwise refinement continues. -/
def cubePred (point : Vec3) (b : Rectangle) (d : ChunkData) : Bool × ChunkData :=
  if b.width ≤ CubeTree.MIN_SIZE then
    (true, { d with hash := ChunkHash.withCollider d.hash true })
  else if b.width * CubeTree.THRESHOLD < dist3 d.center point then (true, d)
  else (false, d)

/-- The child constructor passed to insert_mut by CubeTree::insert:
    data.hash.increment_depth().push_quadrant(quadrant) with a fresh center. -/
def cubeCreate (axis : Axis) (radius : ℝ) (q : Quadrant) (cb : Rectangle)
    (d : ChunkData) : ChunkData :=
  ChunkData.new axis cb radius (ChunkHash.pushQuadrant (ChunkHash.incrementDepth d.hash) q)

/-- CubeTree::insert: rebuild every face from a fresh subdivided root, then
    refine it around the point with the predicate and constructor above. -/
def CubeTree.insert (t : CubeTree) (point : Vec3) (fuel : ℕ) : CubeTree :=
  ⟨t.radius, Axis.ALL.map fun axis =>
    QuadTreeNode.insertMut (cubePred point) (cubeCreate axis t.radius) fuel
      (CubeTree.newFace axis t.radius
        (Rectangle.fromCenterHalfSize (0, 0) (t.radius, t.radius)))⟩

/-- All leaves of a CubeTree, faces in Axis::ALL order (CubeTreeIter order). -/
def CubeTree.leaves (t : CubeTree) : List (Rectangle × ChunkData) :=
  t.faces.flatMap QuadTreeNode.leaves

/-- The leaf hashes of a CubeTree in iteration order. -/
def CubeTree.leafHashes (t : CubeTree) : List ℕ :=
  t.leaves.map fun x => x.2.hash

/-
  Chunk-cache reconciliation from src/src/plugins/terrain/mod.rs.
-/

def NORMAL_CULLING_LEEWAY_DEGREES : ℝ := 20

/-- CHUNK_CULLING_THRESHOLD: cos((90 + leeway) degrees converted to radians). -/
def CHUNK_CULLING_THRESHOLD : ℝ :=
  Real.cos ((90 + NORMAL_CULLING_LEEWAY_DEGREES) * Real.pi / 180)

open Classical in
/-- The backface-cull filter of generate_meshes: keep a chunk when the target
    is (numerically) at the chunk center, or when the dot product of the
    normalized center direction and the normalized vector to the target
    exceeds the culling threshold. -/
def cullKeep (target : Vec3) (d : ChunkData) : Bool :=
  if normSq3 (v3sub target d.center) < 1e-6 then true
  else if CHUNK_CULLING_THRESHOLD
      < v3dot (normalize3 d.center) (normalize3 (v3sub target d.center)) then true
  else false

end

/-- Entities are opaque handles; embedded as naturals handed out by a counter. -/
abbrev Entity := ℕ

/-- Modelled from the spec: the chunk cache of generate_meshes, a mapping
    ChunkHash to materialized-chunk handle with one entry per live mesh
    instance (spec 3).  The ChunkCache declaration committed in body.rs is a
    stale two-level map keyed by axis and bounds; the generate_meshes caller
    uses the hash-keyed API (extract_if / contains_key / insert), which is
    embedded here as an association list with distinct keys. -/
abbrev ChunkCache := List (ℕ × Entity)

def cacheKeys (c : ChunkCache) : List ℕ := c.map Prod.fst

/-- HashMap::contains_key on the association-list embedding. -/
def cacheContainsKey (c : ChunkCache) (h : ℕ) : Bool :=
  c.any fun kv => decide (kv.1 = h)

/-- The externally visible directives a reconciliation pass issues, in order:
    despawn marks a chunk entity for asynchronous teardown (DespawnChunk);
    spawnChunk records a freshly spawned placeholder entity for a hash whose
    mesh-build job is enqueued. -/
inductive ChunkEvent where
  | despawn (e : Entity)
  | spawnChunk (hash : ℕ) (e : Entity)
deriving DecidableEq, Repr

/-- The second loop of generate_meshes: walk the surviving chunks in order;
    a chunk whose hash is already cached is skipped, otherwise a placeholder
    entity is spawned, inserted into the cache, and its build job enqueued. -/
def spawnLoop (filtered : List (Rectangle × ChunkData)) (cache : ChunkCache)
    (fresh : ℕ) : ChunkCache × List ChunkEvent :=
  match filtered with
  | [] => (cache, [])
  | bd :: rest =>
    if cacheContainsKey cache bd.2.hash then spawnLoop rest cache fresh
    else
      ((spawnLoop rest (cache ++ [(bd.2.hash, fresh)]) (fresh + 1)).1,
       .spawnChunk bd.2.hash fresh
         :: (spawnLoop rest (cache ++ [(bd.2.hash, fresh)]) (fresh + 1)).2)

/-- One generate_meshes pass over one body: filter the leaves through the
    backface cull, remove every cache entry whose hash did not survive
    (extract_if) and mark it for teardown, then spawn the missing chunks.
    The event list keeps the source's order: all removals are issued before
    any construction job is enqueued. -/
def generateMeshesPass (keep : ChunkData → Bool)
    (leavesIn : List (Rectangle × ChunkData)) (cache : ChunkCache) (fresh : ℕ) :
    ChunkCache × List ChunkEvent :=
  let filtered := leavesIn.filter fun bd => keep bd.2
  let hashes := filtered.map fun bd => bd.2.hash
  let removed := cache.filter fun kv => !(decide (kv.1 ∈ hashes))
  let kept := cache.filter fun kv => decide (kv.1 ∈ hashes)
  let spawned := spawnLoop filtered kept fresh
  (spawned.1, removed.map (fun kv => ChunkEvent.despawn kv.2) ++ spawned.2)

/-
  ChunkMeshBuilder::build from src/src/plugins/terrain/mesh.rs: buffer sizes
  and the vertex-write index stream of its sampling loop.
-/

/-- ChunkMeshBuilder::VERTEX_COUNT = SUBDIVISIONS + 2. -/
def meshVertexCount (S : ℕ) : ℕ := S + 2

/-- The length the source allocates for the positions, normals and uvs
    buffers: (SUBDIVISIONS + 2) * 2. -/
def meshPositionsLen (S : ℕ) : ℕ := (S + 2) * 2

/-- The length the source allocates for the index buffer:
    (((SUBDIVISIONS + 2) * 2) - 1)^2 * 6. -/
def meshIndicesLen (S : ℕ) : ℕ := ((S + 2) * 2 - 1) ^ 2 * 6

/-- The stream of indices written into positions, normals and uvs by the
    double loop of build: index = x + y * VERTEX_COUNT for y and x each
    ranging over 0..VERTEX_COUNT. -/
def meshVertexWriteIndices (S : ℕ) : List ℕ :=
  (List.range (meshVertexCount S)).flatMap fun y =>
    (List.range (meshVertexCount S)).map fun x => x + y * meshVertexCount S

end Planet

namespace Planet

theorem Quadrant.val_le_four : ∀ q : Quadrant, q.val ≤ 4 := by
  intro q; cases q <;> decide

theorem Quadrant.ofVal?_val : ∀ q : Quadrant, Quadrant.ofVal? q.val = some q := by
  intro q; cases q <;> rfl

theorem Axis.val_le_five : ∀ a : Axis, a.val ≤ 5 := by
  intro a; cases a <;> decide

theorem Axis.ofVal?_of_val : ∀ a : Axis, Axis.ofVal? a.val = some a := by
  intro a; cases a <;> rfl

/-- C1.  ChunkHash encode/decode round-trip: for every axis a, depth t ≤ 63,
collider flag c and 7-element quadrant path p, the accessors axis(), depth(),
path() and collider() applied to ChunkHash::new(a, t, c, p) return exactly
(a, t, p, c), and the constructor's depth assertion passes. -/
theorem chunkhash_roundtrip (a : Axis) (t : ℕ) (c : Bool) (p : Fin 7 → Quadrant)
    (ht : t ≤ 63) :
    ChunkHash.new? a t c p = some (ChunkHash.make a t c p) ∧
    ChunkHash.axis? (ChunkHash.make a t c p) = some a ∧
    ChunkHash.depth (ChunkHash.make a t c p) = t ∧
    (∀ i : Fin 7, ChunkHash.path? (ChunkHash.make a t c p) i = some (p i)) ∧
    ChunkHash.collider (ChunkHash.make a t c p) = c := by
  have ha := Axis.val_le_five a
  have h0 := Quadrant.val_le_four (p 0)
  have h1 := Quadrant.val_le_four (p 1)
  have h2 := Quadrant.val_le_four (p 2)
  have h3 := Quadrant.val_le_four (p 3)
  have h4 := Quadrant.val_le_four (p 4)
  have h5 := Quadrant.val_le_four (p 5)
  have h6 := Quadrant.val_le_four (p 6)
  have hc : cond c 1 0 ≤ 1 := by cases c <;> simp
  have hm : ChunkHash.make a t c p =
      a.val + t * 8 + cond c 1 0 * 512 + (p 0).val * 2 ^ 10 + (p 1).val * 2 ^ 13 +
        (p 2).val * 2 ^ 16 + (p 3).val * 2 ^ 19 + (p 4).val * 2 ^ 22 + (p 5).val * 2 ^ 25 +
        (p 6).val * 2 ^ 28 := by
    unfold ChunkHash.make; omega
  have hp0 : ChunkHash.pathVal (ChunkHash.make a t c p) 0 = (p 0).val := by
    show ChunkHash.make a t c p / 2 ^ (10 + 3 * 0) % 8 = (p 0).val
    rw [hm]; omega
  have hp1 : ChunkHash.pathVal (ChunkHash.make a t c p) 1 = (p 1).val := by
    show ChunkHash.make a t c p / 2 ^ (10 + 3 * 1) % 8 = (p 1).val
    rw [hm]; omega
  have hp2 : ChunkHash.pathVal (ChunkHash.make a t c p) 2 = (p 2).val := by
    show ChunkHash.make a t c p / 2 ^ (10 + 3 * 2) % 8 = (p 2).val
    rw [hm]; omega
  have hp3 : ChunkHash.pathVal (ChunkHash.make a t c p) 3 = (p 3).val := by
    show ChunkHash.make a t c p / 2 ^ (10 + 3 * 3) % 8 = (p 3).val
    rw [hm]; omega
  have hp4 : ChunkHash.pathVal (ChunkHash.make a t c p) 4 = (p 4).val := by
    show ChunkHash.make a t c p / 2 ^ (10 + 3 * 4) % 8 = (p 4).val
    rw [hm]; omega
  have hp5 : ChunkHash.pathVal (ChunkHash.make a t c p) 5 = (p 5).val := by
    show ChunkHash.make a t c p / 2 ^ (10 + 3 * 5) % 8 = (p 5).val
    rw [hm]; omega
  have hp6 : ChunkHash.pathVal (ChunkHash.make a t c p) 6 = (p 6).val := by
    show ChunkHash.make a t c p / 2 ^ (10 + 3 * 6) % 8 = (p 6).val
    rw [hm]; omega
  refine ⟨by simp [ChunkHash.new?, ht], ?_, ?_, ?_, ?_⟩
  · have hval : ChunkHash.make a t c p % 8 = a.val := by rw [hm]; omega
    rw [ChunkHash.axis?, hval, Axis.ofVal?_of_val]
  · unfold ChunkHash.depth; rw [hm]; omega
  · intro i
    fin_cases i
    · show ChunkHash.path? (ChunkHash.make a t c p) 0 = some (p 0)
      rw [ChunkHash.path?, hp0, Quadrant.ofVal?_val]
    · show ChunkHash.path? (ChunkHash.make a t c p) 1 = some (p 1)
      rw [ChunkHash.path?, hp1, Quadrant.ofVal?_val]
    · show ChunkHash.path? (ChunkHash.make a t c p) 2 = some (p 2)
      rw [ChunkHash.path?, hp2, Quadrant.ofVal?_val]
    · show ChunkHash.path? (ChunkHash.make a t c p) 3 = some (p 3)
      rw [ChunkHash.path?, hp3, Quadrant.ofVal?_val]
    · show ChunkHash.path? (ChunkHash.make a t c p) 4 = some (p 4)
      rw [ChunkHash.path?, hp4, Quadrant.ofVal?_val]
    · show ChunkHash.path? (ChunkHash.make a t c p) 5 = some (p 5)
      rw [ChunkHash.path?, hp5, Quadrant.ofVal?_val]
    · show ChunkHash.path? (ChunkHash.make a t c p) 6 = some (p 6)
      rw [ChunkHash.path?, hp6, Quadrant.ofVal?_val]
  · have hval : ChunkHash.make a t c p / 512 % 2 = cond c 1 0 := by rw [hm]; omega
    unfold ChunkHash.collider; rw [hval]; cases c <;> simp

/-- C1 witness: the round-trip theorem applied at a concrete hash. -/
theorem chunkhash_roundtrip_witness :
    (5 : ℕ) ≤ 63 ∧
      ChunkHash.depth (ChunkHash.make .X 5 true (fun _ => .NE)) = 5 ∧
      ChunkHash.collider (ChunkHash.make .X 5 true (fun _ => .NE)) = true :=
  ⟨by decide,
   (chunkhash_roundtrip .X 5 true (fun _ => .NE) (by decide)).2.2.1,
   (chunkhash_roundtrip .X 5 true (fun _ => .NE) (by decide)).2.2.2.2⟩

/-- C4 counterexample: push_quadrant does not increment the depth field.  On
the depth-0 root hash of axis X, pushing SW leaves the depth at 0, not 1 (the
repository's own test_push_quadrant asserts the depth is unchanged). -/
theorem push_quadrant_depth_cx :
    ¬ ChunkHash.depth (ChunkHash.pushQuadrant (ChunkHash.newRoot .X) .SW)
        = ChunkHash.depth (ChunkHash.newRoot .X) + 1 := by
  decide

/-- C4 amended: push_quadrant(q) returns a new hash (the receiver is read
only) whose path is the old path shifted by one slot - q becomes path entry 0,
entry i+1 of the result equals entry i of the receiver, and the oldest entry
(slot 6) is dropped - while the depth field is unchanged; depth is incremented
separately by increment_depth at the call sites. -/
theorem push_quadrant_path_shift (h : ℕ) (q : Quadrant) :
    ChunkHash.path? (ChunkHash.pushQuadrant h q) 0 = some q ∧
    ChunkHash.pathVal (ChunkHash.pushQuadrant h q) 1 = ChunkHash.pathVal h 0 ∧
    ChunkHash.pathVal (ChunkHash.pushQuadrant h q) 2 = ChunkHash.pathVal h 1 ∧
    ChunkHash.pathVal (ChunkHash.pushQuadrant h q) 3 = ChunkHash.pathVal h 2 ∧
    ChunkHash.pathVal (ChunkHash.pushQuadrant h q) 4 = ChunkHash.pathVal h 3 ∧
    ChunkHash.pathVal (ChunkHash.pushQuadrant h q) 5 = ChunkHash.pathVal h 4 ∧
    ChunkHash.pathVal (ChunkHash.pushQuadrant h q) 6 = ChunkHash.pathVal h 5 ∧
    ChunkHash.depth (ChunkHash.pushQuadrant h q) = ChunkHash.depth h := by
  have hq := Quadrant.val_le_four q
  have hpush : ChunkHash.pushQuadrant h q
      = h % 2 ^ 10 + (h / 2 ^ 10 % 2 ^ 23 * 8 + q.val % 8) % 2 ^ 22 * 2 ^ 10 := by
    show h % 2 ^ 10 + (h / 2 ^ 10 % 2 ^ 23 * 8 + q.val % 8) * 2 ^ 10 % 2 ^ 32 = _
    omega
  have hM : ChunkHash.pushQuadrant h q / 2 ^ 10
      = (h / 2 ^ 10 % 2 ^ 23 * 8 + q.val % 8) % 2 ^ 22 := by
    rw [hpush]; omega
  have key : ∀ k : ℕ, ChunkHash.pushQuadrant h q / 2 ^ (10 + k)
      = (h / 2 ^ 10 % 2 ^ 23 * 8 + q.val % 8) % 2 ^ 22 / 2 ^ k := by
    intro k; rw [pow_add, ← Nat.div_div_eq_div_mul, hM]
  have keyh : ∀ k : ℕ, h / 2 ^ (10 + k) = h / 2 ^ 10 / 2 ^ k := by
    intro k; rw [pow_add, ← Nat.div_div_eq_div_mul]
  refine ⟨?_, ?_, ?_, ?_, ?_, ?_, ?_, ?_⟩
  · have hv : ChunkHash.pathVal (ChunkHash.pushQuadrant h q) 0 = q.val := by
      show ChunkHash.pushQuadrant h q / 2 ^ (10 + 0) % 8 = q.val
      rw [key 0]; omega
    rw [ChunkHash.path?, hv, Quadrant.ofVal?_val]
  · show ChunkHash.pushQuadrant h q / 2 ^ (10 + 3) % 8 = h / 2 ^ (10 + 0) % 8
    rw [key 3, keyh 0]; omega
  · show ChunkHash.pushQuadrant h q / 2 ^ (10 + 6) % 8 = h / 2 ^ (10 + 3) % 8
    rw [key 6, keyh 3]; omega
  · show ChunkHash.pushQuadrant h q / 2 ^ (10 + 9) % 8 = h / 2 ^ (10 + 6) % 8
    rw [key 9, keyh 6]; omega
  · show ChunkHash.pushQuadrant h q / 2 ^ (10 + 12) % 8 = h / 2 ^ (10 + 9) % 8
    rw [key 12, keyh 9]; omega
  · show ChunkHash.pushQuadrant h q / 2 ^ (10 + 15) % 8 = h / 2 ^ (10 + 12) % 8
    rw [key 15, keyh 12]; omega
  · show ChunkHash.pushQuadrant h q / 2 ^ (10 + 18) % 8 = h / 2 ^ (10 + 15) % 8
    rw [key 18, keyh 15]; omega
  · show ChunkHash.pushQuadrant h q / 8 % 64 = h / 8 % 64
    rw [hpush]; omega

/-- C10 counterexample: push_quadrant can change a bit outside the 21 path
bits.  On the hash whose oldest path entry (slot 6) is SW, pushing ROOT sets
bit 31 - the low bit of the dropped quadrant leaks past the path field through
the truncated 32-bit shift - so the bits above the path differ. -/
theorem push_quadrant_bit31_cx :
    ChunkHash.pushQuadrant
        (ChunkHash.make .X 0 false (fun i => if i.val = 6 then .SW else .ROOT)) .ROOT
        / 2 ^ 31
      ≠ ChunkHash.make .X 0 false (fun i => if i.val = 6 then .SW else .ROOT) / 2 ^ 31 := by
  decide

/-- C10 amended: push_quadrant leaves the whole 10-bit header - the axis bits,
the depth bits and the collider bit - unchanged, so axis(), depth() and
collider() read the same values; bits outside the header may change, and that
includes bit 31 above the 21 path bits (see the counterexample). -/
theorem push_quadrant_header_frame (h : ℕ) (q : Quadrant) :
    ChunkHash.pushQuadrant h q % 2 ^ 10 = h % 2 ^ 10 ∧
    ChunkHash.axis? (ChunkHash.pushQuadrant h q) = ChunkHash.axis? h ∧
    ChunkHash.depth (ChunkHash.pushQuadrant h q) = ChunkHash.depth h ∧
    ChunkHash.collider (ChunkHash.pushQuadrant h q) = ChunkHash.collider h := by
  have hpush : ChunkHash.pushQuadrant h q
      = h % 2 ^ 10 + (h / 2 ^ 10 % 2 ^ 23 * 8 + q.val % 8) % 2 ^ 22 * 2 ^ 10 := by
    show h % 2 ^ 10 + (h / 2 ^ 10 % 2 ^ 23 * 8 + q.val % 8) * 2 ^ 10 % 2 ^ 32 = _
    omega
  have hax : ChunkHash.pushQuadrant h q % 8 = h % 8 := by rw [hpush]; omega
  have hcol : ChunkHash.pushQuadrant h q / 512 % 2 = h / 512 % 2 := by rw [hpush]; omega
  refine ⟨by rw [hpush]; omega, ?_, ?_, ?_⟩
  · rw [ChunkHash.axis?, ChunkHash.axis?, hax]
  · show ChunkHash.pushQuadrant h q / 8 % 64 = h / 8 % 64
    rw [hpush]; omega
  · unfold ChunkHash.collider; rw [hcol]

/-- C8 counterexample: updating the depth past 63 is silently clamped, not a
fatal assertion.  On a hash at the maximal depth 63, increment_depth passes
min(63 + 1, 63) = 63 to with_depth, the assertion succeeds (some), and the
hash comes back unchanged instead of failing fast. -/
theorem increment_depth_clamps_cx :
    ChunkHash.withDepth? (ChunkHash.make .X 63 false (fun _ => .ROOT))
        (Min.min (ChunkHash.depth (ChunkHash.make .X 63 false (fun _ => .ROOT)) + 1) 63)
      = some (ChunkHash.make .X 63 false (fun _ => .ROOT)) ∧
    ChunkHash.incrementDepth (ChunkHash.make .X 63 false (fun _ => .ROOT))
      = ChunkHash.make .X 63 false (fun _ => .ROOT) := by
  constructor
  · rfl
  · rfl

/-- C8 amended: subdividing an already-internal node always panics, for
subdivide, subdivided and subdivide_with alike; ChunkHash::new and with_depth
assert depth ≤ 63 and fail on larger depths; increment_depth however never
fails: it clamps the new depth at 63, so its inner with_depth assertion always
passes (depth overflow on the increment path is corrected, not fatal). -/
theorem fail_fast_behavior :
    (∀ (T : Type) (create : Quadrant → Rectangle → T → T) (b : Rectangle)
        (c0 c1 c2 c3 : QuadTreeNode T),
      (QuadTreeNode.internal b c0 c1 c2 c3).subdivide? = none ∧
      (QuadTreeNode.internal b c0 c1 c2 c3).subdivideWith? create = none) ∧
    (∀ h d : ℕ, 63 < d → ChunkHash.withDepth? h d = none) ∧
    (∀ (a : Axis) (t : ℕ) (c : Bool) (p : Fin 7 → Quadrant), 63 < t →
      ChunkHash.new? a t c p = none) ∧
    (∀ h : ℕ, ChunkHash.withDepth? h (Min.min (ChunkHash.depth h + 1) 63)
      = some (ChunkHash.incrementDepth h)) := by
  refine ⟨fun T create b c0 c1 c2 c3 => ⟨rfl, rfl⟩, ?_, ?_, ?_⟩
  · intro h d hd
    rw [ChunkHash.withDepth?, if_neg (by omega)]
  · intro a t c p ht
    rw [ChunkHash.new?, if_neg (by omega)]
  · intro h
    rw [ChunkHash.withDepth?, if_pos (by omega)]
    rfl

/-
  Helper lemmas on the quadrant split of a valid rectangle.
-/

theorem center_fst (b : Rectangle) : b.center.1 = (b.min.1 + b.max.1) * 0.5 := rfl

theorem center_snd (b : Rectangle) : b.center.2 = (b.min.2 + b.max.2) * 0.5 := rfl

theorem swQuarter_eq (b : Rectangle) (hb : b.valid) :
    b.swQuarter = ⟨b.min, b.center⟩ := by
  obtain ⟨h1, h2⟩ := hb
  have hc1 : b.min.1 ≤ b.center.1 := by rw [center_fst]; linarith
  have hc2 : b.min.2 ≤ b.center.2 := by rw [center_snd]; linarith
  unfold Rectangle.swQuarter Rectangle.fromCorners
  rw [min_eq_left hc1, min_eq_left hc2, max_eq_right hc1, max_eq_right hc2]

theorem seQuarter_eq (b : Rectangle) (hb : b.valid) :
    b.seQuarter = ⟨(b.center.1, b.min.2), (b.max.1, b.center.2)⟩ := by
  obtain ⟨h1, h2⟩ := hb
  have hc1 : b.center.1 ≤ b.max.1 := by rw [center_fst]; linarith
  have hc2 : b.min.2 ≤ b.center.2 := by rw [center_snd]; linarith
  unfold Rectangle.seQuarter Rectangle.fromCorners
  rw [min_eq_left hc1, min_eq_left hc2, max_eq_right hc1, max_eq_right hc2]

theorem nwQuarter_eq (b : Rectangle) (hb : b.valid) :
    b.nwQuarter = ⟨(b.min.1, b.center.2), (b.center.1, b.max.2)⟩ := by
  obtain ⟨h1, h2⟩ := hb
  have hc1 : b.min.1 ≤ b.center.1 := by rw [center_fst]; linarith
  have hc2 : b.center.2 ≤ b.max.2 := by rw [center_snd]; linarith
  unfold Rectangle.nwQuarter Rectangle.fromCorners
  rw [min_eq_left hc1, min_eq_left hc2, max_eq_right hc1, max_eq_right hc2]

theorem neQuarter_eq (b : Rectangle) (hb : b.valid) :
    b.neQuarter = ⟨b.center, b.max⟩ := by
  obtain ⟨h1, h2⟩ := hb
  have hc1 : b.center.1 ≤ b.max.1 := by rw [center_fst]; linarith
  have hc2 : b.center.2 ≤ b.max.2 := by rw [center_snd]; linarith
  unfold Rectangle.neQuarter Rectangle.fromCorners
  rw [min_eq_left hc1, min_eq_left hc2, max_eq_right hc1, max_eq_right hc2]

theorem quarters_valid (b : Rectangle) (hb : b.valid) :
    b.swQuarter.valid ∧ b.seQuarter.valid ∧ b.nwQuarter.valid ∧ b.neQuarter.valid := by
  obtain ⟨h1, h2⟩ := hb
  rw [swQuarter_eq b ⟨h1, h2⟩, seQuarter_eq b ⟨h1, h2⟩, nwQuarter_eq b ⟨h1, h2⟩,
    neQuarter_eq b ⟨h1, h2⟩]
  unfold Rectangle.valid
  dsimp only
  rw [center_fst, center_snd]
  refine ⟨⟨by linarith, by linarith⟩, ⟨by linarith, by linarith⟩,
    ⟨by linarith, by linarith⟩, by linarith, by linarith⟩

theorem quarters_subRect (b : Rectangle) (hb : b.valid) :
    subRect b.swQuarter b ∧ subRect b.seQuarter b ∧ subRect b.nwQuarter b ∧
      subRect b.neQuarter b := by
  obtain ⟨h1, h2⟩ := hb
  rw [swQuarter_eq b ⟨h1, h2⟩, seQuarter_eq b ⟨h1, h2⟩, nwQuarter_eq b ⟨h1, h2⟩,
    neQuarter_eq b ⟨h1, h2⟩]
  unfold subRect
  dsimp only
  rw [center_fst, center_snd]
  refine ⟨⟨by linarith, by linarith, by linarith, by linarith⟩,
    ⟨by linarith, by linarith, by linarith, by linarith⟩,
    ⟨by linarith, by linarith, by linarith, by linarith⟩,
    by linarith, by linarith, by linarith, by linarith⟩

theorem quarters_width (b : Rectangle) (hb : b.valid) :
    b.swQuarter.width = b.width * 0.5 ∧ b.seQuarter.width = b.width * 0.5 ∧
      b.nwQuarter.width = b.width * 0.5 ∧ b.neQuarter.width = b.width * 0.5 := by
  obtain ⟨h1, h2⟩ := hb
  rw [swQuarter_eq b ⟨h1, h2⟩, seQuarter_eq b ⟨h1, h2⟩, nwQuarter_eq b ⟨h1, h2⟩,
    neQuarter_eq b ⟨h1, h2⟩]
  unfold Rectangle.width
  dsimp only
  rw [center_fst]
  refine ⟨by ring, by ring, by ring, by ring⟩

theorem mem_quarters_iff (b : Rectangle) (hb : b.valid) (p : Vec2) :
    memRect p b ↔ memRect p b.swQuarter ∨ memRect p b.seQuarter ∨
      memRect p b.nwQuarter ∨ memRect p b.neQuarter := by
  obtain ⟨h1, h2⟩ := hb
  rw [swQuarter_eq b ⟨h1, h2⟩, seQuarter_eq b ⟨h1, h2⟩, nwQuarter_eq b ⟨h1, h2⟩,
    neQuarter_eq b ⟨h1, h2⟩]
  unfold memRect
  dsimp only
  rw [center_fst, center_snd]
  constructor
  · rintro ⟨ha, hb', hc, hd⟩
    rcases le_total p.1 ((b.min.1 + b.max.1) * 0.5) with hx | hx <;>
      rcases le_total p.2 ((b.min.2 + b.max.2) * 0.5) with hy | hy
    · exact Or.inl ⟨ha, hx, hc, hy⟩
    · exact Or.inr (Or.inr (Or.inl ⟨ha, hx, hy, hd⟩))
    · exact Or.inr (Or.inl ⟨hx, hb', hc, hy⟩)
    · exact Or.inr (Or.inr (Or.inr ⟨hx, hb', hy, hd⟩))
  · rintro (⟨ha, hb', hc, hd⟩ | ⟨ha, hb', hc, hd⟩ | ⟨ha, hb', hc, hd⟩ | ⟨ha, hb', hc, hd⟩) <;>
      exact ⟨by linarith, by linarith, by linarith, by linarith⟩

theorem quarters_int_disjoint (b : Rectangle) (hb : b.valid) :
    List.Pairwise (fun r s => ∀ p, ¬(memIntRect p r ∧ memIntRect p s))
      [b.swQuarter, b.seQuarter, b.nwQuarter, b.neQuarter] := by
  obtain ⟨h1, h2⟩ := hb
  rw [swQuarter_eq b ⟨h1, h2⟩, seQuarter_eq b ⟨h1, h2⟩, nwQuarter_eq b ⟨h1, h2⟩,
    neQuarter_eq b ⟨h1, h2⟩]
  refine List.Pairwise.cons ?_ (List.Pairwise.cons ?_ (List.Pairwise.cons ?_
    (List.Pairwise.cons (fun s hs => absurd hs (List.not_mem_nil _)) List.Pairwise.nil)))
  · intro r hr p hp
    obtain ⟨hp1, hp2⟩ := hp
    unfold memIntRect at hp1 hp2
    simp only [List.mem_cons, List.not_mem_nil, or_false] at hr
    rcases hr with rfl | rfl | rfl <;>
      · dsimp only at hp1 hp2
        rw [center_fst, center_snd] at hp1 hp2
        obtain ⟨a1, a2, a3, a4⟩ := hp1
        obtain ⟨b1, b2, b3, b4⟩ := hp2
        linarith
  · intro r hr p hp
    obtain ⟨hp1, hp2⟩ := hp
    unfold memIntRect at hp1 hp2
    simp only [List.mem_cons, List.not_mem_nil, or_false] at hr
    rcases hr with rfl | rfl <;>
      · dsimp only at hp1 hp2
        rw [center_fst, center_snd] at hp1 hp2
        obtain ⟨a1, a2, a3, a4⟩ := hp1
        obtain ⟨b1, b2, b3, b4⟩ := hp2
        linarith
  · intro r hr p hp
    obtain ⟨hp1, hp2⟩ := hp
    unfold memIntRect at hp1 hp2
    simp only [List.mem_cons, List.not_mem_nil, or_false] at hr
    rcases hr with rfl
    dsimp only at hp1 hp2
    rw [center_fst, center_snd] at hp1 hp2
    obtain ⟨a1, a2, a3, a4⟩ := hp1
    obtain ⟨b1, b2, b3, b4⟩ := hp2
    linarith

theorem subRect_refl (r : Rectangle) : subRect r r := by
  unfold subRect; exact ⟨le_refl _, le_refl _, le_refl _, le_refl _⟩

theorem subRect_trans {r s t : Rectangle} (h1 : subRect r s) (h2 : subRect s t) :
    subRect r t := by
  unfold subRect at h1 h2 ⊢
  exact ⟨by linarith [h1.1, h2.1], by linarith [h1.2.1, h2.2.1],
    by linarith [h1.2.2.1, h2.2.2.1], by linarith [h1.2.2.2, h2.2.2.2]⟩

theorem memRect_of_subRect {p : Vec2} {r s : Rectangle} (hm : memRect p r)
    (hs : subRect r s) : memRect p s := by
  unfold memRect at hm ⊢
  unfold subRect at hs
  exact ⟨by linarith [hm.1, hs.1], by linarith [hm.2.1, hs.2.1],
    by linarith [hm.2.2.1, hs.2.2.1], by linarith [hm.2.2.2, hs.2.2.2]⟩

theorem memIntRect_of_subRect {p : Vec2} {r s : Rectangle} (hm : memIntRect p r)
    (hs : subRect r s) : memIntRect p s := by
  unfold memIntRect at hm ⊢
  unfold subRect at hs
  exact ⟨by linarith [hm.1, hs.1], by linarith [hm.2.1, hs.2.1],
    by linarith [hm.2.2.1, hs.2.2.1], by linarith [hm.2.2.2, hs.2.2.2]⟩

/-- The four quadrants of a valid rectangle tile it. -/
theorem tilesOf_quarters (b : Rectangle) (hb : b.valid) :
    TilesOf b [b.swQuarter, b.seQuarter, b.nwQuarter, b.neQuarter] := by
  refine ⟨?_, quarters_int_disjoint b hb, ?_⟩
  · intro p
    rw [mem_quarters_iff b hb p]
    constructor
    · rintro (h | h | h | h)
      · exact ⟨b.swQuarter, by simp, h⟩
      · exact ⟨b.seQuarter, by simp, h⟩
      · exact ⟨b.nwQuarter, by simp, h⟩
      · exact ⟨b.neQuarter, by simp, h⟩
    · rintro ⟨r, hr, hm⟩
      simp only [List.mem_cons, List.not_mem_nil, or_false] at hr
      rcases hr with rfl | rfl | rfl | rfl
      · exact Or.inl hm
      · exact Or.inr (Or.inl hm)
      · exact Or.inr (Or.inr (Or.inl hm))
      · exact Or.inr (Or.inr (Or.inr hm))
  · intro r hr
    have hv := quarters_valid b hb
    have hs := quarters_subRect b hb
    simp only [List.mem_cons, List.not_mem_nil, or_false] at hr
    rcases hr with rfl | rfl | rfl | rfl
    · exact ⟨hv.1, hs.1⟩
    · exact ⟨hv.2.1, hs.2.1⟩
    · exact ⟨hv.2.2.1, hs.2.2.1⟩
    · exact ⟨hv.2.2.2, hs.2.2.2⟩

theorem tilesOf_self (b : Rectangle) (hb : b.valid) : TilesOf b [b] := by
  refine ⟨?_, ?_, ?_⟩
  · intro p
    simp only [List.mem_singleton]
    constructor
    · intro h; exact ⟨b, rfl, h⟩
    · rintro ⟨r, rfl, h⟩; exact h
  · exact List.pairwise_singleton _ _
  · intro r hr
    rcases List.mem_singleton.mp hr with rfl
    exact ⟨hb, subRect_refl r⟩

/-- Gluing: if the four children tile B and each child is tiled by its own
    list, the concatenation (in child order) tiles B. -/
theorem tilesOf_glue (B c1 c2 c3 c4 : Rectangle) (l1 l2 l3 l4 : List Rectangle)
    (hB : TilesOf B [c1, c2, c3, c4]) (h1 : TilesOf c1 l1) (h2 : TilesOf c2 l2)
    (h3 : TilesOf c3 l3) (h4 : TilesOf c4 l4) :
    TilesOf B (l1 ++ l2 ++ l3 ++ l4) := by
  obtain ⟨hBu, hBd, hBs⟩ := hB
  have hc1 : c1 ∈ [c1, c2, c3, c4] := by simp
  have hc2 : c2 ∈ [c1, c2, c3, c4] := by simp
  have hc3 : c3 ∈ [c1, c2, c3, c4] := by simp
  have hc4 : c4 ∈ [c1, c2, c3, c4] := by simp
  have inChild : ∀ (c : Rectangle) (l : List Rectangle), TilesOf c l →
      ∀ r ∈ l, subRect r c := fun c l hc r hr => (hc.2.2 r hr).2
  have crossDisj : ∀ (ca cb : Rectangle) (la lb : List Rectangle),
      TilesOf ca la → TilesOf cb lb →
      (∀ p, ¬(memIntRect p ca ∧ memIntRect p cb)) →
      ∀ r ∈ la, ∀ s ∈ lb, ∀ p, ¬(memIntRect p r ∧ memIntRect p s) := by
    intro ca cb la lb hca hcb hd r hr s hs p hps
    exact hd p ⟨memIntRect_of_subRect hps.1 (inChild ca la hca r hr),
      memIntRect_of_subRect hps.2 (inChild cb lb hcb s hs)⟩
  refine ⟨?_, ?_, ?_⟩
  · intro p
    constructor
    · intro hp
      rcases (hBu p).mp hp with ⟨c, hc, hmc⟩
      simp only [List.mem_cons, List.not_mem_nil, or_false] at hc
      rcases hc with rfl | rfl | rfl | rfl
      · rcases (h1.1 p).mp hmc with ⟨r, hr, hm⟩
        exact ⟨r, by simp [hr], hm⟩
      · rcases (h2.1 p).mp hmc with ⟨r, hr, hm⟩
        exact ⟨r, by simp [hr], hm⟩
      · rcases (h3.1 p).mp hmc with ⟨r, hr, hm⟩
        exact ⟨r, by simp [hr], hm⟩
      · rcases (h4.1 p).mp hmc with ⟨r, hr, hm⟩
        exact ⟨r, by simp [hr], hm⟩
    · rintro ⟨r, hr, hm⟩
      simp only [List.mem_append] at hr
      rcases hr with ((hr | hr) | hr) | hr
      · exact memRect_of_subRect (memRect_of_subRect hm (inChild c1 l1 h1 r hr))
          (hBs c1 hc1).2
      · exact memRect_of_subRect (memRect_of_subRect hm (inChild c2 l2 h2 r hr))
          (hBs c2 hc2).2
      · exact memRect_of_subRect (memRect_of_subRect hm (inChild c3 l3 h3 r hr))
          (hBs c3 hc3).2
      · exact memRect_of_subRect (memRect_of_subRect hm (inChild c4 l4 h4 r hr))
          (hBs c4 hc4).2
  · obtain ⟨h1x, hrest⟩ := List.pairwise_cons.mp hBd
    obtain ⟨h2x, hrest2⟩ := List.pairwise_cons.mp hrest
    obtain ⟨h3x, _⟩ := List.pairwise_cons.mp hrest2
    have d12 := crossDisj c1 c2 l1 l2 h1 h2 (h1x c2 (by simp))
    have d13 := crossDisj c1 c3 l1 l3 h1 h3 (h1x c3 (by simp))
    have d14 := crossDisj c1 c4 l1 l4 h1 h4 (h1x c4 (by simp))
    have d23 := crossDisj c2 c3 l2 l3 h2 h3 (h2x c3 (by simp))
    have d24 := crossDisj c2 c4 l2 l4 h2 h4 (h2x c4 (by simp))
    have d34 := crossDisj c3 c4 l3 l4 h3 h4 (h3x c4 (by simp))
    rw [List.pairwise_append, List.pairwise_append, List.pairwise_append]
    refine ⟨⟨⟨h1.2.1, h2.2.1, d12⟩, h3.2.1, ?_⟩, h4.2.1, ?_⟩
    · intro r hr s hs
      rcases List.mem_append.mp hr with hr | hr
      · exact d13 r hr s hs
      · exact d23 r hr s hs
    · intro r hr s hs
      rcases List.mem_append.mp hr with hr | hr
      · rcases List.mem_append.mp hr with hr | hr
        · exact d14 r hr s hs
        · exact d24 r hr s hs
      · exact d34 r hr s hs
  · intro r hr
    simp only [List.mem_append] at hr
    rcases hr with ((hr | hr) | hr) | hr
    · exact ⟨(h1.2.2 r hr).1, subRect_trans (h1.2.2 r hr).2 (hBs c1 hc1).2⟩
    · exact ⟨(h2.2.2 r hr).1, subRect_trans (h2.2.2 r hr).2 (hBs c2 hc2).2⟩
    · exact ⟨(h3.2.2 r hr).1, subRect_trans (h3.2.2 r hr).2 (hBs c3 hc3).2⟩
    · exact ⟨(h4.2.2 r hr).1, subRect_trans (h4.2.2 r hr).2 (hBs c4 hc4).2⟩

/-- Auxiliary induction for the recursive subdivision of a fresh leaf. -/
theorem subdivideRecursive_leaf_tiles {T : Type} (d : ℕ) :
    ∀ (b : Rectangle) (dat : T), b.valid →
      ∃ t, QuadTreeNode.subdivideRecursive? d (QuadTreeNode.leaf b dat) = some t ∧
        t.leaves.length = 4 ^ d ∧ TilesOf b (t.leaves.map Prod.fst) := by
  induction d with
  | zero =>
    intro b dat hb
    exact ⟨.leaf b dat, rfl, rfl, tilesOf_self b hb⟩
  | succ d ih =>
    intro b dat hb
    have hv := quarters_valid b hb
    obtain ⟨t1, e1, len1, til1⟩ := ih b.swQuarter dat hv.1
    obtain ⟨t2, e2, len2, til2⟩ := ih b.seQuarter dat hv.2.1
    obtain ⟨t3, e3, len3, til3⟩ := ih b.nwQuarter dat hv.2.2.1
    obtain ⟨t4, e4, len4, til4⟩ := ih b.neQuarter dat hv.2.2.2
    refine ⟨.internal b t1 t2 t3 t4, ?_, ?_, ?_⟩
    · simp [QuadTreeNode.subdivideRecursive?, e1, e2, e3, e4]
    · simp only [QuadTreeNode.leaves, List.length_append, len1, len2, len3, len4]
      rw [pow_succ]
      ring
    · have hleaves : (QuadTreeNode.internal b t1 t2 t3 t4).leaves.map Prod.fst
          = t1.leaves.map Prod.fst ++ t2.leaves.map Prod.fst ++ t3.leaves.map Prod.fst
            ++ t4.leaves.map Prod.fst := by
        simp [QuadTreeNode.leaves, List.map_append]
      rw [hleaves]
      exact tilesOf_glue b _ _ _ _ _ _ _ _ (tilesOf_quarters b hb) til1 til2 til3 til4

/-- C7.  For every valid bounds B, payload and depth d, subdivide_recursive(d)
on a fresh leaf succeeds (no panic) and yields exactly 4^d leaves whose bounds
exactly tile B: their union is B, no two of them overlap beyond shared edges,
and each is contained in B. -/
theorem subdivide_recursive_tiles {T : Type} (B : Rectangle) (dat : T) (d : ℕ)
    (hB : B.valid) :
    ∃ t, QuadTreeNode.subdivideRecursive? d (QuadTreeNode.leaf B dat) = some t ∧
      t.leaves.length = 4 ^ d ∧ TilesOf B (t.leaves.map Prod.fst) :=
  subdivideRecursive_leaf_tiles d B dat hB

/-- C7 witness: the tiling theorem applied to the unit square at depth 1. -/
theorem subdivide_recursive_tiles_witness :
    (Rectangle.mk (0, 0) (1, 1)).valid ∧
      ∃ t, QuadTreeNode.subdivideRecursive? 1
          (QuadTreeNode.leaf (Rectangle.mk (0, 0) (1, 1)) (0 : ℕ)) = some t ∧
        t.leaves.length = 4 ^ 1 ∧
        TilesOf (Rectangle.mk (0, 0) (1, 1)) (t.leaves.map Prod.fst) :=
  ⟨⟨by norm_num, by norm_num⟩,
   subdivide_recursive_tiles (Rectangle.mk (0, 0) (1, 1)) 0 1 ⟨by norm_num, by norm_num⟩⟩

/-
  Reduction lemmas for insertMut and the refinement invariant.
-/

theorem insertMut_internal {T : Type} (pred : Rectangle → T → Bool × T)
    (create : Quadrant → Rectangle → T → T) (fuel : ℕ) (b : Rectangle)
    (c0 c1 c2 c3 : QuadTreeNode T) :
    QuadTreeNode.insertMut pred create fuel (.internal b c0 c1 c2 c3)
      = .internal b (QuadTreeNode.insertMut pred create fuel c0)
          (QuadTreeNode.insertMut pred create fuel c1)
          (QuadTreeNode.insertMut pred create fuel c2)
          (QuadTreeNode.insertMut pred create fuel c3) := by
  rw [QuadTreeNode.insertMut]

theorem insertMut_leaf_true {T : Type} (pred : Rectangle → T → Bool × T)
    (create : Quadrant → Rectangle → T → T) (fuel : ℕ) (b : Rectangle) (d d2 : T)
    (h : pred b d = (true, d2)) :
    QuadTreeNode.insertMut pred create fuel (.leaf b d) = .leaf b d2 := by
  conv_lhs => rw [QuadTreeNode.insertMut]
  rw [h]

theorem insertMut_leaf_false_zero {T : Type} (pred : Rectangle → T → Bool × T)
    (create : Quadrant → Rectangle → T → T) (b : Rectangle) (d d2 : T)
    (h : pred b d = (false, d2)) :
    QuadTreeNode.insertMut pred create 0 (.leaf b d) = .leaf b d2 := by
  conv_lhs => rw [QuadTreeNode.insertMut]
  rw [h]

theorem insertMut_leaf_false_succ {T : Type} (pred : Rectangle → T → Bool × T)
    (create : Quadrant → Rectangle → T → T) (f : ℕ) (b : Rectangle) (d d2 : T)
    (h : pred b d = (false, d2)) :
    QuadTreeNode.insertMut pred create (f + 1) (.leaf b d)
      = .internal b
          (QuadTreeNode.insertMut pred create f
            (.leaf b.swQuarter (create .SW b.swQuarter d2)))
          (QuadTreeNode.insertMut pred create f
            (.leaf b.seQuarter (create .SE b.seQuarter d2)))
          (QuadTreeNode.insertMut pred create f
            (.leaf b.nwQuarter (create .NW b.nwQuarter d2)))
          (QuadTreeNode.insertMut pred create f
            (.leaf b.neQuarter (create .NE b.neQuarter d2))) := by
  conv_lhs => rw [QuadTreeNode.insertMut]
  rw [h]
  dsimp only
  rw [insertMut_internal]

theorem collider_withCollider (h : ℕ) :
    ChunkHash.collider (ChunkHash.withCollider h true) = true := by
  unfold ChunkHash.collider ChunkHash.withCollider
  simp only [cond, decide_eq_true_eq]
  omega

theorem cubePred_small {point : Vec3} {b : Rectangle} {d : ChunkData}
    (h : b.width ≤ CubeTree.MIN_SIZE) :
    cubePred point b d = (true, { d with hash := ChunkHash.withCollider d.hash true }) := by
  unfold cubePred
  rw [if_pos h]

theorem cubePred_far {point : Vec3} {b : Rectangle} {d : ChunkData}
    (h1 : ¬ b.width ≤ CubeTree.MIN_SIZE)
    (h2 : b.width * CubeTree.THRESHOLD < dist3 d.center point) :
    cubePred point b d = (true, d) := by
  unfold cubePred
  rw [if_neg h1, if_pos h2]

theorem cubePred_continue {point : Vec3} {b : Rectangle} {d : ChunkData}
    (h1 : ¬ b.width ≤ CubeTree.MIN_SIZE)
    (h2 : ¬ b.width * CubeTree.THRESHOLD < dist3 d.center point) :
    cubePred point b d = (false, d) := by
  unfold cubePred
  rw [if_neg h1, if_neg h2]

/-- The refinement invariant on a single leaf: with enough fuel for its width,
    every leaf that insert_mut leaves behind is stopped - either at the
    minimum-size floor with its collider flag set, or farther from the point
    than width times the threshold. -/
theorem insertMut_leaf_stopped (point : Vec3) (axis : Axis) (radius : ℝ) :
    ∀ (fuel : ℕ) (b : Rectangle) (d : ChunkData), b.valid →
      b.width ≤ CubeTree.MIN_SIZE * 2 ^ fuel →
      ∀ x ∈ (QuadTreeNode.insertMut (cubePred point) (cubeCreate axis radius) fuel
          (QuadTreeNode.leaf b d)).leaves,
        (x.1.width ≤ CubeTree.MIN_SIZE ∧ ChunkHash.collider x.2.hash = true) ∨
          x.1.width * CubeTree.THRESHOLD < dist3 x.2.center point := by
  intro fuel
  induction fuel with
  | zero =>
    intro b d hbv hbw x hx
    by_cases hsmall : b.width ≤ CubeTree.MIN_SIZE
    · rw [insertMut_leaf_true _ _ _ _ _ _ (cubePred_small hsmall)] at hx
      simp only [QuadTreeNode.leaves, List.mem_singleton] at hx
      subst hx
      exact Or.inl ⟨hsmall, collider_withCollider d.hash⟩
    · exfalso
      apply hsmall
      simpa using hbw
  | succ f ih =>
    intro b d hbv hbw x hx
    by_cases hsmall : b.width ≤ CubeTree.MIN_SIZE
    · rw [insertMut_leaf_true _ _ _ _ _ _ (cubePred_small hsmall)] at hx
      simp only [QuadTreeNode.leaves, List.mem_singleton] at hx
      subst hx
      exact Or.inl ⟨hsmall, collider_withCollider d.hash⟩
    · by_cases hfar : b.width * CubeTree.THRESHOLD < dist3 d.center point
      · rw [insertMut_leaf_true _ _ _ _ _ _ (cubePred_far hsmall hfar)] at hx
        simp only [QuadTreeNode.leaves, List.mem_singleton] at hx
        subst hx
        exact Or.inr hfar
      · rw [insertMut_leaf_false_succ _ _ _ _ _ _ (cubePred_continue hsmall hfar)] at hx
        have hw := quarters_width b hbv
        have hv := quarters_valid b hbv
        have hhalf : b.width * 0.5 ≤ CubeTree.MIN_SIZE * 2 ^ f := by
          rw [pow_succ] at hbw
          linarith
        simp only [QuadTreeNode.leaves, List.mem_append] at hx
        rcases hx with ((hx | hx) | hx) | hx
        · exact ih b.swQuarter _ hv.1 (by rw [hw.1]; exact hhalf) x hx
        · exact ih b.seQuarter _ hv.2.1 (by rw [hw.2.1]; exact hhalf) x hx
        · exact ih b.nwQuarter _ hv.2.2.1 (by rw [hw.2.2.1]; exact hhalf) x hx
        · exact ih b.neQuarter _ hv.2.2.2 (by rw [hw.2.2.2]; exact hhalf) x hx

/-- C2.  After CubeTree::insert(point) - run with enough fuel for the radius,
which the Rust recursion has implicitly - every leaf of every face satisfies
the stopping condition: either (a) its bounds size has reached the
minimum-size floor and its hash carries the collider flag, or (b) the distance
from its sphere-mapped center to the point exceeds size times THRESHOLD. -/
theorem cubetree_insert_stopping (t : CubeTree) (point : Vec3) (fuel : ℕ)
    (h0 : 0 ≤ t.radius) (hf : t.radius ≤ CubeTree.MIN_SIZE * 2 ^ fuel) :
    ∀ x ∈ (t.insert point fuel).leaves,
      (x.1.width ≤ CubeTree.MIN_SIZE ∧ ChunkHash.collider x.2.hash = true) ∨
        x.1.width * CubeTree.THRESHOLD < dist3 x.2.center point := by
  intro x hx
  unfold CubeTree.insert CubeTree.leaves at hx
  simp only [List.mem_flatMap, List.mem_map] at hx
  obtain ⟨node, ⟨axis, _, rfl⟩, hx⟩ := hx
  unfold CubeTree.newFace QuadTreeNode.newSubdividedWith at hx
  rw [insertMut_internal] at hx
  set bounds := Rectangle.fromCenterHalfSize (0, 0) (t.radius, t.radius) with hbdef
  have hbv : bounds.valid := by
    rw [hbdef]
    unfold Rectangle.fromCenterHalfSize Rectangle.valid
    dsimp only
    constructor <;> linarith
  have hbw : bounds.width = 2 * t.radius := by
    rw [hbdef]
    unfold Rectangle.fromCenterHalfSize Rectangle.width
    dsimp only
    ring
  have hw := quarters_width bounds hbv
  have hv := quarters_valid bounds hbv
  have hhalf : bounds.width * 0.5 ≤ CubeTree.MIN_SIZE * 2 ^ fuel := by
    rw [hbw]; linarith
  simp only [QuadTreeNode.leaves, List.mem_append] at hx
  rcases hx with ((hx | hx) | hx) | hx
  · exact insertMut_leaf_stopped point axis t.radius fuel bounds.swQuarter _ hv.1
      (by rw [hw.1]; exact hhalf) x hx
  · exact insertMut_leaf_stopped point axis t.radius fuel bounds.seQuarter _ hv.2.1
      (by rw [hw.2.1]; exact hhalf) x hx
  · exact insertMut_leaf_stopped point axis t.radius fuel bounds.nwQuarter _ hv.2.2.1
      (by rw [hw.2.2.1]; exact hhalf) x hx
  · exact insertMut_leaf_stopped point axis t.radius fuel bounds.neQuarter _ hv.2.2.2
      (by rw [hw.2.2.2]; exact hhalf) x hx

/-- C2 witness: the stopping theorem applied to a radius-200 tree, the origin
point and fuel 4 (200 is at most 24 * 16). -/
theorem cubetree_insert_stopping_witness :
    ((0 : ℝ) ≤ (CubeTree.new 200).radius ∧
      (CubeTree.new 200).radius ≤ CubeTree.MIN_SIZE * 2 ^ 4) ∧
    ∀ x ∈ ((CubeTree.new 200).insert (0, 0, 0) 4).leaves,
      (x.1.width ≤ CubeTree.MIN_SIZE ∧ ChunkHash.collider x.2.hash = true) ∨
        x.1.width * CubeTree.THRESHOLD < dist3 x.2.center (0, 0, 0) :=
  ⟨⟨by norm_num [CubeTree.new], by norm_num [CubeTree.new, CubeTree.MIN_SIZE]⟩,
   cubetree_insert_stopping (CubeTree.new 200) (0, 0, 0) 4
     (by norm_num [CubeTree.new]) (by norm_num [CubeTree.new, CubeTree.MIN_SIZE])⟩

/-- Norm-squared identity of the unit warp: on the surface of the unit cube
    (all coordinates of square at most 1, one of square exactly 1) the warped
    point lies on the unit sphere - an exact polynomial identity. -/
theorem unitCubeToSphere_normSq (x y z : ℝ) (hx : x ^ 2 ≤ 1) (hy : y ^ 2 ≤ 1)
    (hz : z ^ 2 ≤ 1) (hone : x ^ 2 = 1 ∨ y ^ 2 = 1 ∨ z ^ 2 = 1) :
    normSq3 (unitCubeToSphere (x, y, z)) = 1 := by
  unfold unitCubeToSphere normSq3
  dsimp only
  have hA : (0 : ℝ) ≤ 1 - y ^ 2 / 2 - z ^ 2 / 2 + y ^ 2 * z ^ 2 / 3 := by
    nlinarith [mul_nonneg (by linarith : (0:ℝ) ≤ 1 - y ^ 2 / 2)
      (by linarith : (0:ℝ) ≤ 1 - z ^ 2 / 2), sq_nonneg (y * z)]
  have hB : (0 : ℝ) ≤ 1 - z ^ 2 / 2 - x ^ 2 / 2 + z ^ 2 * x ^ 2 / 3 := by
    nlinarith [mul_nonneg (by linarith : (0:ℝ) ≤ 1 - z ^ 2 / 2)
      (by linarith : (0:ℝ) ≤ 1 - x ^ 2 / 2), sq_nonneg (z * x)]
  have hC : (0 : ℝ) ≤ 1 - x ^ 2 / 2 - y ^ 2 / 2 + x ^ 2 * y ^ 2 / 3 := by
    nlinarith [mul_nonneg (by linarith : (0:ℝ) ≤ 1 - x ^ 2 / 2)
      (by linarith : (0:ℝ) ≤ 1 - y ^ 2 / 2), sq_nonneg (x * y)]
  rw [mul_pow, mul_pow, mul_pow, Real.sq_sqrt hA, Real.sq_sqrt hB, Real.sq_sqrt hC]
  rcases hone with h | h | h
  · linear_combination (1 - y ^ 2 - z ^ 2 + y ^ 2 * z ^ 2) * h
  · linear_combination (1 - z ^ 2 - x ^ 2 + z ^ 2 * x ^ 2) * h
  · linear_combination (1 - x ^ 2 - y ^ 2 + x ^ 2 * y ^ 2) * h

/-- C9.  Cube-to-sphere magnitude preservation: for every point on the surface
of the cube of half-extent R (R positive), the forward map cube_to_sphere
sends it to a point at distance exactly R from the origin - the exact-real
statement of the within-floating-point-tolerance claim. -/
theorem cube_to_sphere_magnitude (R : ℝ) (p : Vec3) (hR : 0 < R)
    (hp : onCubeSurface R p) : dist3 (cubeToSphere p R) (0, 0, 0) = R := by
  unfold onCubeSurface at hp
  have hx : |p.1| ≤ R := by rw [← hp]; exact le_max_left _ _
  have hy : |p.2.1| ≤ R := by
    rw [← hp]; exact le_trans (le_max_left _ _) (le_max_right _ _)
  have hz : |p.2.2| ≤ R := by
    rw [← hp]; exact le_trans (le_max_right _ _) (le_max_right _ _)
  have hone : |p.1| = R ∨ |p.2.1| = R ∨ |p.2.2| = R := by
    rcases max_choice |p.1| (Max.max |p.2.1| |p.2.2|) with h | h
    · exact Or.inl (by rw [← hp, h])
    · rcases max_choice |p.2.1| |p.2.2| with h2 | h2
      · exact Or.inr (Or.inl (by rw [← hp, h, h2]))
      · exact Or.inr (Or.inr (by rw [← hp, h, h2]))
  have hR2 : (0 : ℝ) < R ^ 2 := by positivity
  have hsq : ∀ a : ℝ, |a| ≤ R → (a / R) ^ 2 ≤ 1 := by
    intro a ha
    rw [div_pow, div_le_one hR2, ← sq_abs]
    nlinarith [abs_nonneg a]
  have hsq1 : ∀ a : ℝ, |a| = R → (a / R) ^ 2 = 1 := by
    intro a ha
    rw [div_pow, ← sq_abs, ha]
    field_simp
  have hnorm : normSq3 (unitCubeToSphere (v3divs p R)) = 1 := by
    have := unitCubeToSphere_normSq (p.1 / R) (p.2.1 / R) (p.2.2 / R)
      (hsq _ hx) (hsq _ hy) (hsq _ hz)
      (by rcases hone with h | h | h
          · exact Or.inl (hsq1 _ h)
          · exact Or.inr (Or.inl (hsq1 _ h))
          · exact Or.inr (Or.inr (hsq1 _ h)))
    exact this
  unfold dist3 norm3 cubeToSphere
  have hsub : v3sub (v3smul R (unitCubeToSphere (v3divs p R))) (0, 0, 0)
      = v3smul R (unitCubeToSphere (v3divs p R)) := by
    unfold v3sub v3smul
    dsimp only
    rw [sub_zero, sub_zero, sub_zero]
  rw [hsub]
  have hscale : normSq3 (v3smul R (unitCubeToSphere (v3divs p R)))
      = R ^ 2 * normSq3 (unitCubeToSphere (v3divs p R)) := by
    unfold normSq3 v3smul
    dsimp only
    ring
  rw [hscale, hnorm, mul_one, Real.sqrt_sq hR.le]

/-- C9 witness: the magnitude theorem applied to the point (0, 0, 2) on the
surface of the half-extent-2 cube. -/
theorem cube_to_sphere_magnitude_witness :
    ((0 : ℝ) < 2 ∧ onCubeSurface 2 ((0 : ℝ), (0 : ℝ), (2 : ℝ))) ∧
      dist3 (cubeToSphere ((0 : ℝ), (0 : ℝ), (2 : ℝ)) 2) (0, 0, 0) = 2 := by
  have hsurf : onCubeSurface 2 ((0 : ℝ), (0 : ℝ), (2 : ℝ)) := by
    unfold onCubeSurface
    norm_num
  exact ⟨⟨by norm_num, hsurf⟩,
    cube_to_sphere_magnitude 2 ((0 : ℝ), (0 : ℝ), (2 : ℝ)) (by norm_num) hsurf⟩

/-- C3 counterexample: CubeTree::new does not yield 6 root leaves.  At radius
200 the constructor builds every face already subdivided once, so the tree has
24 leaves, not 6. -/
theorem cubetree_new_six_leaves_cx :
    (CubeTree.new 200).leaves.length = 24 ∧ (24 : ℕ) ≠ 6 := by
  exact ⟨rfl, by decide⟩

/-- C3 amended: for every radius, CubeTree::new yields 24 leaves - four per
axis, in quadrant order SW, SE, NW, NE - and each leaf's hash equals
ChunkHash::new_root(axis).with_depth(1).push_quadrant(quadrant), not
new_root(axis) itself. -/
theorem cubetree_new_leaves (radius : ℝ) :
    (CubeTree.new radius).leaves.length = 24 ∧
    (CubeTree.new radius).leafHashes
      = Axis.ALL.flatMap fun a => Quadrant.ALL.map fun q =>
          ChunkHash.pushQuadrant (ChunkHash.withDepthRaw (ChunkHash.newRoot a) 1) q := by
  exact ⟨rfl, rfl⟩

/-- C6: the ChunkMeshBuilder::build sampling loop is not total.  At the
subdivision count 5 used by the repository's examples, the source allocates
(S + 2) * 2 = 14 slots for the positions, normals and uvs buffers, while the
loop emits the full (S + 2)^2 = 49 vertex-grid write indices 0..48; 35 of
those writes, the index 48 among them, fall outside the 14-slot buffers, an
out-of-bounds panic in Rust. -/
theorem mesh_builder_oob :
    meshPositionsLen 5 = 14 ∧
    (meshVertexWriteIndices 5).length = 49 ∧
    48 ∈ meshVertexWriteIndices 5 ∧
    ((meshVertexWriteIndices 5).filter fun i => decide (meshPositionsLen 5 ≤ i)).length
      = 35 := by
  refine ⟨rfl, rfl, by decide, rfl⟩

theorem cacheContainsKey_iff (c : ChunkCache) (h : ℕ) :
    cacheContainsKey c h = true ↔ h ∈ cacheKeys c := by
  unfold cacheContainsKey cacheKeys
  simp only [List.any_eq_true, decide_eq_true_eq, List.mem_map]

/-- The spawn loop: distinct keys are preserved, the final key set is the old
    keys joined with the processed hashes, old entries survive, new entries
    carry processed hashes, and all its events are spawn events. -/
theorem spawnLoop_spec (filtered : List (Rectangle × ChunkData)) :
    ∀ (cache : ChunkCache) (fresh : ℕ), (cacheKeys cache).Nodup →
      (cacheKeys (spawnLoop filtered cache fresh).1).Nodup ∧
      (∀ h, h ∈ cacheKeys (spawnLoop filtered cache fresh).1 ↔
        h ∈ cacheKeys cache ∨ h ∈ filtered.map fun bd => bd.2.hash) ∧
      (∀ kv, kv ∈ cache → kv ∈ (spawnLoop filtered cache fresh).1) ∧
      (∀ kv, kv ∈ (spawnLoop filtered cache fresh).1 →
        kv ∈ cache ∨ kv.1 ∈ filtered.map fun bd => bd.2.hash) ∧
      (∀ e ∈ (spawnLoop filtered cache fresh).2,
        ∃ hsh ent, e = ChunkEvent.spawnChunk hsh ent) := by
  induction filtered with
  | nil =>
    intro cache fresh hnd
    refine ⟨hnd, ?_, ?_, ?_, ?_⟩
    · intro h
      simp [spawnLoop]
    · intro kv hkv
      simpa [spawnLoop] using hkv
    · intro kv hkv
      simp only [spawnLoop] at hkv
      exact Or.inl hkv
    · intro e he
      simp [spawnLoop] at he
  | cons bd rest ih =>
    intro cache fresh hnd
    by_cases hc : cacheContainsKey cache bd.2.hash = true
    · have hred : spawnLoop (bd :: rest) cache fresh = spawnLoop rest cache fresh := by
        simp only [spawnLoop]
        rw [if_pos hc]
      have hbd : bd.2.hash ∈ cacheKeys cache := (cacheContainsKey_iff _ _).mp hc
      obtain ⟨n1, n2, n3, n4, n5⟩ := ih cache fresh hnd
      rw [hred]
      refine ⟨n1, ?_, n3, ?_, n5⟩
      · intro h
        rw [n2 h]
        simp only [List.map_cons, List.mem_cons]
        constructor
        · rintro (h1 | h1)
          · exact Or.inl h1
          · exact Or.inr (Or.inr h1)
        · rintro (h1 | rfl | h1)
          · exact Or.inl h1
          · exact Or.inl hbd
          · exact Or.inr h1
      · intro kv hkv
        rcases n4 kv hkv with h1 | h1
        · exact Or.inl h1
        · right
          simp only [List.map_cons, List.mem_cons]
          exact Or.inr h1
    · have hred : spawnLoop (bd :: rest) cache fresh
          = ((spawnLoop rest (cache ++ [(bd.2.hash, fresh)]) (fresh + 1)).1,
             ChunkEvent.spawnChunk bd.2.hash fresh
               :: (spawnLoop rest (cache ++ [(bd.2.hash, fresh)]) (fresh + 1)).2) := by
        simp only [spawnLoop]
        rw [if_neg hc]
      have hnotin : bd.2.hash ∉ cacheKeys cache := fun hmem =>
        hc ((cacheContainsKey_iff _ _).mpr hmem)
      have hkeys : cacheKeys (cache ++ [(bd.2.hash, fresh)])
          = cacheKeys cache ++ [bd.2.hash] := by
        unfold cacheKeys
        rw [List.map_append]
        rfl
      have hnd2 : (cacheKeys (cache ++ [(bd.2.hash, fresh)])).Nodup := by
        rw [hkeys]
        refine List.Nodup.append hnd (List.nodup_singleton _) ?_
        intro a ha hb
        rcases List.mem_singleton.mp hb with rfl
        exact hnotin ha
      obtain ⟨n1, n2, n3, n4, n5⟩ := ih (cache ++ [(bd.2.hash, fresh)]) (fresh + 1) hnd2
      rw [hred]
      refine ⟨n1, ?_, ?_, ?_, ?_⟩
      · intro h
        rw [show cacheKeys ((spawnLoop rest (cache ++ [(bd.2.hash, fresh)]) (fresh + 1)).1,
              ChunkEvent.spawnChunk bd.2.hash fresh
                :: (spawnLoop rest (cache ++ [(bd.2.hash, fresh)]) (fresh + 1)).2).1
            = cacheKeys (spawnLoop rest (cache ++ [(bd.2.hash, fresh)]) (fresh + 1)).1
          from rfl, n2 h, hkeys]
        simp only [List.mem_append, List.mem_singleton, List.map_cons, List.mem_cons]
        tauto
      · intro kv hkv
        exact n3 kv (List.mem_append.mpr (Or.inl hkv))
      · intro kv hkv
        rcases n4 kv hkv with h1 | h1
        · rcases List.mem_append.mp h1 with h2 | h2
          · exact Or.inl h2
          · right
            rcases List.mem_singleton.mp h2 with rfl
            simp
        · right
          simp only [List.map_cons, List.mem_cons]
          exact Or.inr h1
      · intro e he
        rcases List.mem_cons.mp he with rfl | he2
        · exact ⟨bd.2.hash, fresh, rfl⟩
        · exact n5 e he2

/-- C5.  Reconciliation correctness of one generate_meshes pass: starting from
a cache with distinct keys, the resulting cache's key set is exactly the set
of hashes of leaves surviving the backface cull, with distinct keys; every
cache entry whose hash did not survive is removed from the cache and its
entity marked for asynchronous teardown; and the event log is all removals
followed by all construction enqueues. -/
theorem generate_meshes_reconciliation (target : Vec3)
    (leavesIn : List (Rectangle × ChunkData)) (cache : ChunkCache) (fresh : ℕ)
    (hnd : (cacheKeys cache).Nodup) :
    (cacheKeys (generateMeshesPass (cullKeep target) leavesIn cache fresh).1).Nodup ∧
    (∀ h, h ∈ cacheKeys (generateMeshesPass (cullKeep target) leavesIn cache fresh).1 ↔
      h ∈ (leavesIn.filter fun bd => cullKeep target bd.2).map fun bd => bd.2.hash) ∧
    (∀ kv ∈ cache,
      kv.1 ∉ (leavesIn.filter fun bd => cullKeep target bd.2).map (fun bd => bd.2.hash) →
      kv ∉ (generateMeshesPass (cullKeep target) leavesIn cache fresh).1 ∧
        ChunkEvent.despawn kv.2 ∈ (generateMeshesPass (cullKeep target) leavesIn cache fresh).2) ∧
    (∃ ds ss : List ChunkEvent,
      (generateMeshesPass (cullKeep target) leavesIn cache fresh).2 = ds ++ ss ∧
      (∀ e ∈ ds, ∃ ent, e = ChunkEvent.despawn ent) ∧
      (∀ e ∈ ss, ∃ hsh ent, e = ChunkEvent.spawnChunk hsh ent)) := by
  unfold generateMeshesPass
  dsimp only
  set flt := leavesIn.filter fun bd => cullKeep target bd.2 with hflt
  set hashes := flt.map fun bd => bd.2.hash with hhashes
  set kept := cache.filter fun kv => decide (kv.1 ∈ hashes) with hkept
  set removed := cache.filter fun kv => !(decide (kv.1 ∈ hashes)) with hremoved
  have hkeptsub : kept.Sublist cache := List.filter_sublist cache
  have hndkept : (cacheKeys kept).Nodup :=
    List.Nodup.sublist (List.Sublist.map Prod.fst hkeptsub) hnd
  have hkeptkeys : ∀ h, h ∈ cacheKeys kept → h ∈ hashes := by
    intro h hm
    rcases List.mem_map.mp hm with ⟨kv, hkv, rfl⟩
    have := (List.mem_filter.mp hkv).2
    simpa using this
  obtain ⟨n1, n2, n3, n4, n5⟩ := spawnLoop_spec flt kept fresh hndkept
  refine ⟨n1, ?_, ?_, ?_⟩
  · intro h
    rw [n2 h]
    constructor
    · rintro (h1 | h1)
      · exact hkeptkeys h h1
      · exact h1
    · intro h1
      exact Or.inr h1
  · intro kv hkv hnotin
    constructor
    · intro hmem
      rcases n4 kv hmem with h1 | h1
      · have := (List.mem_filter.mp h1).2
        simp only [decide_eq_true_eq] at this
        exact hnotin this
      · exact hnotin h1
    · have hrm : kv ∈ removed := by
        rw [hremoved]
        refine List.mem_filter.mpr ⟨hkv, ?_⟩
        simp only [Bool.not_eq_true', decide_eq_false_iff_not]
        exact hnotin
      exact List.mem_append.mpr (Or.inl (List.mem_map.mpr ⟨kv, hrm, rfl⟩))
  · refine ⟨removed.map fun kv => ChunkEvent.despawn kv.2,
      (spawnLoop flt kept fresh).2, rfl, ?_, n5⟩
    intro e he
    rcases List.mem_map.mp he with ⟨kv, _, rfl⟩
    exact ⟨kv.2, rfl⟩

/-- C5 witness: the reconciliation theorem applied to an empty leaf list and a
one-entry cache (whose single stale entry must be despawned). -/
theorem generate_meshes_reconciliation_witness :
    (cacheKeys [((5 : ℕ), (7 : ℕ))]).Nodup ∧
      (cacheKeys (generateMeshesPass (cullKeep (0, 0, 0)) [] [((5 : ℕ), (7 : ℕ))] 0).1).Nodup :=
  ⟨by simp [cacheKeys],
   (generate_meshes_reconciliation (0, 0, 0) [] [((5 : ℕ), (7 : ℕ))] 0
     (by simp [cacheKeys])).1⟩

/-- C8 witness: the fail-fast theorem applied at concrete inputs. -/
theorem fail_fast_behavior_witness :
    ((63 : ℕ) < 64 ∧ ChunkHash.withDepth? 0 64 = none) ∧
      (QuadTreeNode.internal (⟨(0, 0), (1, 1)⟩ : Rectangle)
        (.leaf ⟨(0, 0), (1, 1)⟩ (0 : ℕ)) (.leaf ⟨(0, 0), (1, 1)⟩ 0)
        (.leaf ⟨(0, 0), (1, 1)⟩ 0) (.leaf ⟨(0, 0), (1, 1)⟩ 0)).subdivide? = none :=
  ⟨⟨by decide, fail_fast_behavior.2.1 0 64 (by decide)⟩,
   (fail_fast_behavior.1 ℕ (fun _ _ d => d) ⟨(0, 0), (1, 1)⟩ _ _ _ _).1⟩

end Planet
